import Mathlib

/-!
Verification of the chat state store of `local-chat`
(`src/lib/chat-store.ts` and the polling route
`src/app/api/chat/messages/route.ts`).

The store is embedded shallowly:

* `User` and `Message` mirror the TypeScript interfaces; `Date` values and
  `Date.now()` results are modelled as `Nat` milliseconds.
* The JavaScript `Map<string, User>` is modelled as an insertion-ordered
  association list `List (String × User)` with `Map.set` / `Map.delete` /
  `Map.get` semantics (`mapSet`, `mapDelete`, `mapGet`); `Map` iteration
  order is insertion order, which the list order represents.
* The sources of nondeterminism — `Date.now()`, `generateId()`
  (`Math.random().toString(36).substr(2, 9)`) and `getRandomColor()`
  (`colors[Math.floor(Math.random() * colors.length)]`) — are passed in as
  explicit arguments: a `now : Nat`, a `freshId : String`, and a color
  index `Fin colors.length` (the floor of a random draw in `[0, 1)` times
  the palette length is always a valid index).
* Mutating methods return the new store value alongside their result.
-/

namespace LocalChat

/-- `interface User` from `chat-store.ts`. -/
structure User where
  id : String
  username : String
  color : String
  lastSeen : Nat
deriving DecidableEq, Repr

/-- The `type` field of a message: `'user' | 'system'`. -/
inductive MsgType where
  | user
  | system
deriving DecidableEq, Repr

/-- `interface Message` from `chat-store.ts`; `timestamp: Date` is modelled
as milliseconds. -/
structure Message where
  id : String
  username : String
  content : String
  timestamp : Nat
  type : MsgType
  color : String
deriving DecidableEq, Repr

/-- The fixed color palette `colors` of `chat-store.ts`. -/
def colors : List String :=
  ["#e74c3c", "#3498db", "#2ecc71", "#9b59b6", "#f39c12", "#1abc9c", "#e67e22", "#34495e"]

/-- `getRandomColor = () => colors[Math.floor(Math.random() * colors.length)]`;
the random draw is represented by the resulting in-range index. -/
def getRandomColor (k : Fin colors.length) : String :=
  colors.get k

/-- The global store state: `users: Map<string, User>` (insertion-ordered
association list) and `messages: Message[]`. -/
structure ChatStore where
  users : List (String × User)
  messages : List Message
deriving DecidableEq, Repr

/-- The freshly initialized store of `getStore()`:
`{ users: new Map(), messages: [] }`. -/
def initStore : ChatStore :=
  { users := [], messages := [] }

/-- JavaScript `Map.prototype.set`: replace the value at the first (unique)
occurrence of the key, keeping its position; append a new entry otherwise. -/
def mapSet : List (String × User) → String → User → List (String × User)
  | [], k, v => [(k, v)]
  | (k', v') :: rest, k, v =>
    if k' = k then (k, v) :: rest else (k', v') :: mapSet rest k v

/-- JavaScript `Map.prototype.delete`: drop the entry with the given key. -/
def mapDelete (m : List (String × User)) (k : String) : List (String × User) :=
  m.filter (fun e => e.1 ≠ k)

/-- JavaScript `Map.prototype.get`: value at the key, if present. -/
def mapGet (m : List (String × User)) (k : String) : Option User :=
  (m.find? (fun e => e.1 = k)).map (·.2)

/-- `Array.from(this.users.values())`: values in insertion order. -/
def mapValues (m : List (String × User)) : List User :=
  m.map (·.2)

/-- The in-place `existingUser.lastSeen = Date.now()` of `addUser`: the first
map entry (in insertion order) whose value has the given username gets its
`lastSeen` replaced; everything else is untouched. -/
def updateFirstByUsername : List (String × User) → String → Nat → List (String × User)
  | [], _, _ => []
  | (k, u) :: rest, un, now =>
    if u.username = un then (k, { u with lastSeen := now }) :: rest
    else (k, u) :: updateFirstByUsername rest un now

/-- `store.addUser(username)`: find an existing user by username and refresh
its `lastSeen`, or create a fresh user (`generateId()`, `getRandomColor()`,
`lastSeen = Date.now()`) and `set` it under its id. Returns the user and the
new store. -/
def addUser (s : ChatStore) (username : String) (now : Nat) (freshId : String)
    (colorIdx : Fin colors.length) : User × ChatStore :=
  match (mapValues s.users).find? (fun u => u.username = username) with
  | some existingUser =>
      ({ existingUser with lastSeen := now },
       { s with users := updateFirstByUsername s.users username now })
  | none =>
      let user : User :=
        { id := freshId, username := username, color := getRandomColor colorIdx,
          lastSeen := now }
      (user, { s with users := mapSet s.users user.id user })

/-- `store.removeUser(userId)`: `this.users.delete(userId)`. -/
def removeUser (s : ChatStore) (userId : String) : ChatStore :=
  { s with users := mapDelete s.users userId }

/-- `store.getUser(userId)`: `this.users.get(userId)`. -/
def getUser (s : ChatStore) (userId : String) : Option User :=
  mapGet s.users userId

/-- The presence timeout of `getOnlineUsers` (`const timeout = 30000`). -/
def presenceTimeout : Nat := 30000

/-- `store.getOnlineUsers()`: delete every user with
`now - user.lastSeen > timeout` while iterating the map, then return the
remaining values. (JavaScript number subtraction is negative when
`lastSeen > now`, hence not above the timeout; `Nat` subtraction gives `0`
there, with the same outcome.) -/
def getOnlineUsers (s : ChatStore) (now : Nat) : List User × ChatStore :=
  let remaining := s.users.filter (fun e => ¬ (now - e.2.lastSeen > presenceTimeout))
  (mapValues remaining, { s with users := remaining })

/-- `store.updateUserSeen(userId)`: refresh `lastSeen` of the user stored at
this id, if present. -/
def updateUserSeen (s : ChatStore) (userId : String) (now : Nat) : ChatStore :=
  match mapGet s.users userId with
  | some u => { s with users := mapSet s.users userId { u with lastSeen := now } }
  | none => s

/-- The message-log capacity (`if (this.messages.length > 100) shift()`). -/
def maxMessages : Nat := 100

/-- `store.addMessage(username, content, color, type)`: build a message with
a fresh id and the current time, push it, and `shift()` the oldest entry if
the length now exceeds 100. Returns the message and the new store. -/
def addMessage (s : ChatStore) (username content color : String) (type : MsgType)
    (now : Nat) (freshId : String) : Message × ChatStore :=
  let message : Message :=
    { id := freshId, username := username, content := content, timestamp := now,
      type := type, color := color }
  let pushed := s.messages ++ [message]
  (message,
   { s with messages := if pushed.length > maxMessages then pushed.tail else pushed })

/-- `store.addSystemMessage(content)`:
`this.addMessage('System', content, '#666666', 'system')`. -/
def addSystemMessage (s : ChatStore) (content : String) (now : Nat)
    (freshId : String) : Message × ChatStore :=
  addMessage s "System" content "#666666" MsgType.system now freshId

/-- `store.getMessages()`: the current log. -/
def getMessages (s : ChatStore) : List Message :=
  s.messages

/-- The record returned by `store.getStats()`. -/
structure Stats where
  onlineUsers : Nat
  totalMessages : Nat
  userMessages : Nat
deriving DecidableEq, Repr

/-- `store.getStats()`: online-user count via the sweeping `getOnlineUsers()`,
log length, and count of `type === 'user'` entries. The store returned
alongside reflects the sweep performed by `getOnlineUsers`. -/
def getStats (s : ChatStore) (now : Nat) : Stats × ChatStore :=
  let swept := getOnlineUsers s now
  ({ onlineUsers := swept.1.length,
     totalMessages := swept.2.messages.length,
     userMessages := (swept.2.messages.filter (fun m => m.type = MsgType.user)).length },
   swept.2)

/-- The poll handler of `src/app/api/chat/messages/route.ts`: with a truthy
`lastMessageId` that occurs in the log (`findIndex ≠ -1`), return the
messages strictly after its first occurrence; otherwise the full log. The
JavaScript truthiness test `if (lastMessageId)` makes both an absent cursor
and the empty string fall through to the full log. -/
def pollDelta (messages : List Message) (lastMessageId : Option String) : List Message :=
  match lastMessageId with
  | none => messages
  | some lid =>
    if lid = "" then messages
    else
      match messages.findIdx? (fun m => m.id = lid) with
      | none => messages
      | some lastIndex => messages.drop (lastIndex + 1)

/-- The arguments of one `addMessage` call, together with the call-time
values of `Date.now()` and `generateId()`. -/
structure AMCall where
  username : String
  content : String
  color : String
  type : MsgType
  now : Nat
  freshId : String
deriving DecidableEq, Repr

/-- The message object one `addMessage` call constructs. -/
def mkMessage (c : AMCall) : Message :=
  { id := c.freshId, username := c.username, content := c.content,
    timestamp := c.now, type := c.type, color := c.color }

/-- The store after one `addMessage` call. -/
def addMessageStep (s : ChatStore) (c : AMCall) : ChatStore :=
  (addMessage s c.username c.content c.color c.type c.now c.freshId).2

/-- The store after a sequence of `addMessage` calls. -/
def runAddMessages (s : ChatStore) (cs : List AMCall) : ChatStore :=
  cs.foldl addMessageStep s

/-- The messages returned, in call order, by a sequence of `addMessage`
calls. -/
def runCreated (s : ChatStore) : List AMCall → List Message
  | [] => []
  | c :: cs =>
    (addMessage s c.username c.content c.color c.type c.now c.freshId).1
      :: runCreated (addMessageStep s c) cs

/-- One `addMessage` call turns the log into the push of the new message
with the oldest entry shifted off exactly when the bound is exceeded; both
cases are the drop of `length + 1 - 100` entries from the front. -/
theorem addMessageStep_messages (s : ChatStore) (c : AMCall)
    (h : s.messages.length ≤ maxMessages) :
    (addMessageStep s c).messages
      = (s.messages ++ [mkMessage c]).drop (s.messages.length + 1 - maxMessages) := by
  have hm : maxMessages = 100 := rfl
  show (if (s.messages ++ [mkMessage c]).length > maxMessages
        then (s.messages ++ [mkMessage c]).tail
        else s.messages ++ [mkMessage c])
      = (s.messages ++ [mkMessage c]).drop (s.messages.length + 1 - maxMessages)
  by_cases hc : s.messages.length + 1 > maxMessages
  · have hcond : (s.messages ++ [mkMessage c]).length > maxMessages := by
      simp only [List.length_append, List.length_singleton]
      omega
    have h1 : s.messages.length + 1 - maxMessages = 1 := by omega
    rw [if_pos hcond, h1, List.drop_one]
  · have hcond : ¬ (s.messages ++ [mkMessage c]).length > maxMessages := by
      simp only [List.length_append, List.length_singleton]
      omega
    have h0 : s.messages.length + 1 - maxMessages = 0 := by omega
    rw [if_neg hcond, h0, List.drop_zero]

/-- Log contents after a sequence of `addMessage` calls from a state within
the bound: the pushed messages follow the old ones in call order, with
exactly the oldest entries dropped from the front once the total passes the
100-message bound. -/
theorem runAddMessages_messages_eq (cs : List AMCall) (s : ChatStore)
    (h : s.messages.length ≤ maxMessages) :
    (runAddMessages s cs).messages
      = (s.messages ++ cs.map mkMessage).drop
          (s.messages.length + cs.length - maxMessages) := by
  have hm : maxMessages = 100 := rfl
  induction cs generalizing s with
  | nil =>
    simp [runAddMessages, Nat.sub_eq_zero_of_le h]
  | cons c cs ih =>
    have hstep := addMessageStep_messages s c h
    have hlen : (addMessageStep s c).messages.length
        = s.messages.length + 1 - (s.messages.length + 1 - maxMessages) := by
      rw [hstep]
      simp [List.length_drop]
    have hb : (addMessageStep s c).messages.length ≤ maxMessages := by omega
    have ih' := ih (addMessageStep s c) hb
    have hrun : runAddMessages s (c :: cs) = runAddMessages (addMessageStep s c) cs := rfl
    rw [hrun, ih', hstep]
    have hlen' : ((s.messages ++ [mkMessage c]).drop
          (s.messages.length + 1 - maxMessages)).length
        = s.messages.length + 1 - (s.messages.length + 1 - maxMessages) := by
      simp [List.length_drop]
    rw [hlen']
    have hdistrib : ((s.messages ++ [mkMessage c]) ++ cs.map mkMessage).drop
          (s.messages.length + 1 - maxMessages)
        = (s.messages ++ [mkMessage c]).drop (s.messages.length + 1 - maxMessages)
          ++ cs.map mkMessage := by
      apply List.drop_append_of_le_length
      have hL : (s.messages ++ [mkMessage c]).length = s.messages.length + 1 := by simp
      omega
    rw [← hdistrib, List.drop_drop]
    have he : (s.messages ++ [mkMessage c]) ++ cs.map mkMessage
        = s.messages ++ mkMessage c :: cs.map mkMessage := by simp
    rw [he, List.map_cons]
    simp only [List.length_cons]
    congr 1
    omega

/-- The messages returned by a call sequence carry exactly the supplied
fresh ids, in order. -/
theorem runCreated_map_id (cs : List AMCall) (s : ChatStore) :
    (runCreated s cs).map Message.id = cs.map AMCall.freshId := by
  induction cs generalizing s with
  | nil => rfl
  | cons c cs ih =>
    simp only [runCreated, List.map_cons, ih (addMessageStep s c)]
    rfl

/-- The log after a call sequence is a suffix of the old log followed by the
created messages: entries are never rewritten, only evicted from the front. -/
theorem runAddMessages_messages_suffix (cs : List AMCall) (s : ChatStore) :
    List.IsSuffix (runAddMessages s cs).messages (s.messages ++ runCreated s cs) := by
  induction cs generalizing s with
  | nil =>
    simp [runAddMessages, runCreated]
  | cons c cs ih =>
    have h1 := ih (addMessageStep s c)
    have hstep : List.IsSuffix (addMessageStep s c).messages
        (s.messages ++ [mkMessage c]) := by
      by_cases hc : (s.messages ++ [mkMessage c]).length > maxMessages
      · have : (addMessageStep s c).messages = (s.messages ++ [mkMessage c]).tail := by
          show (if (s.messages ++ [mkMessage c]).length > maxMessages
                then (s.messages ++ [mkMessage c]).tail
                else s.messages ++ [mkMessage c]) = _
          rw [if_pos hc]
        rw [this]
        exact List.tail_suffix _
      · have : (addMessageStep s c).messages = s.messages ++ [mkMessage c] := by
          show (if (s.messages ++ [mkMessage c]).length > maxMessages
                then (s.messages ++ [mkMessage c]).tail
                else s.messages ++ [mkMessage c]) = _
          rw [if_neg hc]
        rw [this]
    have h2 : List.IsSuffix
        ((addMessageStep s c).messages ++ runCreated (addMessageStep s c) cs)
        ((s.messages ++ [mkMessage c]) ++ runCreated (addMessageStep s c) cs) := by
      obtain ⟨p, hp⟩ := hstep
      exact ⟨p, by rw [← List.append_assoc, hp]⟩
    have h3 := h1.trans h2
    have he : (s.messages ++ [mkMessage c]) ++ runCreated (addMessageStep s c) cs
        = s.messages ++ runCreated s (c :: cs) := by
      rw [List.append_assoc]
      rfl
    rw [← he]
    exact h3

/-- C1: starting from any store state within the 100-message bound (an
invariant of every reachable state), a sequence of `addMessage` calls leaves
`getMessages()` equal to the old log followed by the new messages in call
order with exactly the oldest entries dropped once the bound is passed, the
log length never exceeds 100, and an append from a full log evicts exactly
the oldest remaining entry, leaving the others unchanged and in order. -/
theorem addMessage_sequence_fifo (s : ChatStore) (cs : List AMCall)
    (h : s.messages.length ≤ maxMessages) :
    getMessages (runAddMessages s cs)
      = (getMessages s ++ cs.map mkMessage).drop
          (s.messages.length + cs.length - maxMessages) ∧
    (getMessages (runAddMessages s cs)).length ≤ maxMessages ∧
    (∀ c : AMCall, s.messages.length = maxMessages →
        getMessages (addMessageStep s c) = (getMessages s).tail ++ [mkMessage c]) := by
  have hm : maxMessages = 100 := rfl
  refine ⟨runAddMessages_messages_eq cs s h, ?_, ?_⟩
  · have heq := runAddMessages_messages_eq cs s h
    have : (getMessages (runAddMessages s cs)).length
        = (s.messages ++ cs.map mkMessage).length
          - (s.messages.length + cs.length - maxMessages) := by
      rw [getMessages, heq, List.length_drop]
    have hL : (s.messages ++ cs.map mkMessage).length
        = s.messages.length + cs.length := by simp
    omega
  · intro c hn
    have hstep := addMessageStep_messages s c h
    rw [getMessages, hstep, hn]
    have h1 : maxMessages + 1 - maxMessages = 1 := by omega
    rw [h1, List.drop_one]
    cases hsm : s.messages with
    | nil =>
      rw [hsm] at hn
      simp [hm] at hn
    | cons a t =>
      rw [getMessages, hsm]
      rfl

/-- Instantiation of the FIFO theorem: two `addMessage` calls from the fresh
store leave both messages in the log, in call order. -/
theorem addMessage_sequence_fifo_witness :
    getMessages (runAddMessages initStore
        [{ username := "alice", content := "hi", color := "#e74c3c",
           type := MsgType.user, now := 5, freshId := "m1" },
         { username := "bob", content := "yo", color := "#3498db",
           type := MsgType.user, now := 6, freshId := "m2" }])
      = [{ id := "m1", username := "alice", content := "hi", timestamp := 5,
           type := MsgType.user, color := "#e74c3c" },
         { id := "m2", username := "bob", content := "yo", timestamp := 6,
           type := MsgType.user, color := "#3498db" }] := by
  rw [(addMessage_sequence_fifo initStore
      [{ username := "alice", content := "hi", color := "#e74c3c",
         type := MsgType.user, now := 5, freshId := "m1" },
       { username := "bob", content := "yo", color := "#3498db",
         type := MsgType.user, now := 6, freshId := "m2" }] (by decide)).1]
  rfl

/-- C6 fails as stated: `generateId` is `Math.random().toString(36).substr(2, 9)`
and nothing in `addMessage` rejects a repeated draw, so a run in which the
generator returns `"a"` twice creates two distinct messages with the same
id. -/
theorem message_id_collision_cex :
    ¬ ((runCreated initStore
        [{ username := "alice", content := "hi", color := "#e74c3c",
           type := MsgType.user, now := 5, freshId := "a" },
         { username := "bob", content := "yo", color := "#3498db",
           type := MsgType.user, now := 6, freshId := "a" }]).map Message.id).Nodup := by
  decide

/-- C6 (amended): a message's id is fixed at creation and never rewritten —
the log evolves only by appending freshly created messages and evicting from
the front, so every retained entry is exactly as created — and the messages
created across any call sequence carry exactly the ids supplied by the
generator, hence are pairwise distinct whenever the generator's outputs
are. -/
theorem message_ids_stable (s : ChatStore) (cs : List AMCall) :
    (runCreated s cs).map Message.id = cs.map AMCall.freshId ∧
    List.IsSuffix (runAddMessages s cs).messages (s.messages ++ runCreated s cs) ∧
    ((cs.map AMCall.freshId).Nodup → ((runCreated s cs).map Message.id).Nodup) := by
  refine ⟨runCreated_map_id cs s, runAddMessages_messages_suffix cs s, ?_⟩
  intro hnd
  rw [runCreated_map_id cs s]
  exact hnd

/-- Instantiation of the id-stability theorem: two calls with distinct
generated ids create messages with distinct ids. -/
theorem message_ids_stable_witness :
    ((runCreated initStore
        [{ username := "alice", content := "hi", color := "#e74c3c",
           type := MsgType.user, now := 5, freshId := "m1" },
         { username := "bob", content := "yo", color := "#3498db",
           type := MsgType.user, now := 6, freshId := "m2" }]).map Message.id).Nodup :=
  (message_ids_stable initStore
      [{ username := "alice", content := "hi", color := "#e74c3c",
         type := MsgType.user, now := 5, freshId := "m1" },
       { username := "bob", content := "yo", color := "#3498db",
         type := MsgType.user, now := 6, freshId := "m2" }]).2.2 (by decide)

/-- When the values of a map contain a username match, the map splits at the
first matching entry, and the in-place `lastSeen` refresh rewrites exactly
that entry. -/
theorem updateFirstByUsername_decomp (m : List (String × User)) (un : String)
    (now : Nat) (u : User)
    (hfind : (mapValues m).find? (fun v => v.username = un) = some u) :
    ∃ l1 k l2, m = l1 ++ (k, u) :: l2 ∧ (∀ e ∈ l1, e.2.username ≠ un) ∧
      updateFirstByUsername m un now = l1 ++ (k, { u with lastSeen := now }) :: l2 := by
  induction m with
  | nil => simp [mapValues] at hfind
  | cons a rest ih =>
    obtain ⟨k0, v0⟩ := a
    by_cases hv : v0.username = un
    · have hu : v0 = u := by
        have : some v0 = some u := by simpa [mapValues, hv] using hfind
        exact Option.some.inj this
      subst hu
      exact ⟨[], k0, rest, by simp, by simp, by simp [updateFirstByUsername, hv]⟩
    · have hfind' : (mapValues rest).find? (fun v => v.username = un) = some u := by
        simpa [mapValues, hv] using hfind
      obtain ⟨l1, k, l2, heq, hl1, hupd⟩ := ih hfind'
      refine ⟨(k0, v0) :: l1, k, l2, by simp [heq], ?_, ?_⟩
      · intro e he
        rcases List.mem_cons.1 he with rfl | he'
        · exact hv
        · exact hl1 e he'
      · simp [updateFirstByUsername, hv, hupd]

/-- `Map.set` places the new entry either at the position of the replaced
key or at the end; every entry before it was already in the map. -/
theorem mapSet_decomp (m : List (String × User)) (k : String) (v : User) :
    ∃ l1 l2, mapSet m k v = l1 ++ (k, v) :: l2 ∧ ∀ e ∈ l1, e ∈ m := by
  induction m with
  | nil => exact ⟨[], [], rfl, by simp⟩
  | cons a rest ih =>
    obtain ⟨k0, v0⟩ := a
    by_cases hk : k0 = k
    · exact ⟨[], rest, by simp [mapSet, hk], by simp⟩
    · obtain ⟨l1, l2, heq, hmem⟩ := ih
      refine ⟨(k0, v0) :: l1, l2, by simp [mapSet, hk, heq], ?_⟩
      intro e he
      rcases List.mem_cons.1 he with rfl | he'
      · exact List.mem_cons_self _ _
      · exact List.mem_cons_of_mem _ (hmem e he')

/-- After any `addUser` call, the returned user has the requested username,
`lastSeen` equal to the call time, and sits in the user map with no
earlier entry carrying that username. -/
theorem addUser_decomp (s : ChatStore) (un : String) (now : Nat) (i : String)
    (c : Fin colors.length) :
    (addUser s un now i c).1.username = un ∧
    (addUser s un now i c).1.lastSeen = now ∧
    ∃ l1 k l2,
      (addUser s un now i c).2.users = l1 ++ (k, (addUser s un now i c).1) :: l2 ∧
      ∀ e ∈ l1, e.2.username ≠ un := by
  cases hfind : (mapValues s.users).find? (fun v => v.username = un) with
  | some u =>
    have hu : u.username = un := by
      have := List.find?_some hfind
      simpa using this
    obtain ⟨l1, k, l2, heq, hl1, hupd⟩ := updateFirstByUsername_decomp s.users un now u hfind
    refine ⟨?_, ?_, l1, k, l2, ?_, hl1⟩
    · simp [addUser, hfind, hu]
    · simp [addUser, hfind]
    · simp [addUser, hfind, hupd]
  | none =>
    obtain ⟨l1, l2, heq, hmem⟩ := mapSet_decomp s.users i
      { id := i, username := un, color := getRandomColor c, lastSeen := now }
    refine ⟨?_, ?_, l1, i, l2, ?_, ?_⟩
    · simp [addUser, hfind]
    · simp [addUser, hfind]
    · simp [addUser, hfind, heq]
    · intro e he
      have hval : e.2 ∈ mapValues s.users := List.mem_map_of_mem _ (hmem e he)
      have := List.find?_eq_none.1 hfind e.2 hval
      simpa using this

/-- Finding by username in a map that splits at its first matching entry
returns exactly that entry's value. -/
theorem find_values_at (l1 l2 : List (String × User)) (k : String) (u : User)
    (un : String) (h1 : ∀ e ∈ l1, e.2.username ≠ un) (hu : u.username = un) :
    (mapValues (l1 ++ (k, u) :: l2)).find? (fun v => v.username = un) = some u := by
  induction l1 with
  | nil => simp [mapValues, hu]
  | cons a t ih =>
    have ha := h1 a (List.mem_cons_self a t)
    have ih' := ih (fun e he => h1 e (List.mem_cons_of_mem a he))
    simpa [mapValues, ha] using ih'

/-- Refreshing the first username match in a map that splits at its first
matching entry rewrites exactly that entry. -/
theorem updateFirstByUsername_append (l1 l2 : List (String × User)) (k : String)
    (u : User) (un : String) (now : Nat)
    (h1 : ∀ e ∈ l1, e.2.username ≠ un) (hu : u.username = un) :
    updateFirstByUsername (l1 ++ (k, u) :: l2) un now
      = l1 ++ (k, { u with lastSeen := now }) :: l2 := by
  induction l1 with
  | nil => simp [updateFirstByUsername, hu]
  | cons a t ih =>
    obtain ⟨ka, va⟩ := a
    have ha := h1 (ka, va) (List.mem_cons_self _ t)
    have ih' := ih (fun e he => h1 e (List.mem_cons_of_mem _ he))
    simp only [List.cons_append, updateFirstByUsername]
    rw [if_neg ha]
    exact congrArg (List.cons (ka, va)) ih'

/-- Computation rule for `addUser` when a username match exists. -/
theorem addUser_of_find_some (s : ChatStore) (un : String) (now : Nat) (i : String)
    (c : Fin colors.length) (u : User)
    (hfind : (mapValues s.users).find? (fun v => v.username = un) = some u) :
    addUser s un now i c
      = ({ u with lastSeen := now },
         { s with users := updateFirstByUsername s.users un now }) := by
  simp [addUser, hfind]

/-- Computation rule for `addUser` when no username match exists. -/
theorem addUser_of_find_none (s : ChatStore) (un : String) (now : Nat) (i : String)
    (c : Fin colors.length)
    (hfind : (mapValues s.users).find? (fun v => v.username = un) = none) :
    addUser s un now i c
      = ({ id := i, username := un, color := getRandomColor c, lastSeen := now },
         { s with users :=
             mapSet s.users i { id := i, username := un, color := getRandomColor c, lastSeen := now } }) := by
  simp [addUser, hfind]

/-- C2: two consecutive `addUser` calls with the same username (no
intervening removal or sweep): the second call returns the first call's
record with only `lastSeen` replaced by the later time — same id, `lastSeen`
at least the first call's — creates no user record, and rewrites exactly the
one matching map entry. -/
theorem addUser_twice_idempotent (s : ChatStore) (un : String) (n1 n2 : Nat)
    (i1 i2 : String) (c1 c2 : Fin colors.length) (h : n1 ≤ n2) :
    (addUser (addUser s un n1 i1 c1).2 un n2 i2 c2).1
        = { (addUser s un n1 i1 c1).1 with lastSeen := n2 } ∧
    (addUser (addUser s un n1 i1 c1).2 un n2 i2 c2).1.id
        = (addUser s un n1 i1 c1).1.id ∧
    (addUser s un n1 i1 c1).1.lastSeen
        ≤ (addUser (addUser s un n1 i1 c1).2 un n2 i2 c2).1.lastSeen ∧
    (addUser (addUser s un n1 i1 c1).2 un n2 i2 c2).2.users.length
        = (addUser s un n1 i1 c1).2.users.length ∧
    ∃ l1 k l2,
      (addUser s un n1 i1 c1).2.users
          = l1 ++ (k, (addUser s un n1 i1 c1).1) :: l2 ∧
      (addUser (addUser s un n1 i1 c1).2 un n2 i2 c2).2.users
          = l1 ++ (k, (addUser (addUser s un n1 i1 c1).2 un n2 i2 c2).1) :: l2 := by
  obtain ⟨hun, hls, l1, k, l2, heq, hl1⟩ := addUser_decomp s un n1 i1 c1
  have hfind2 : (mapValues (addUser s un n1 i1 c1).2.users).find?
      (fun v => v.username = un) = some (addUser s un n1 i1 c1).1 := by
    rw [heq]
    exact find_values_at l1 l2 k _ un hl1 hun
  have hcomp := addUser_of_find_some (addUser s un n1 i1 c1).2 un n2 i2 c2
    (addUser s un n1 i1 c1).1 hfind2
  have h2 : (addUser (addUser s un n1 i1 c1).2 un n2 i2 c2).1
      = { (addUser s un n1 i1 c1).1 with lastSeen := n2 } := by
    rw [hcomp]
  have husers2 : (addUser (addUser s un n1 i1 c1).2 un n2 i2 c2).2.users
      = l1 ++ (k, { (addUser s un n1 i1 c1).1 with lastSeen := n2 }) :: l2 := by
    have hu2 : (addUser (addUser s un n1 i1 c1).2 un n2 i2 c2).2.users
        = updateFirstByUsername (addUser s un n1 i1 c1).2.users un n2 := by
      rw [hcomp]
    rw [hu2, heq]
    exact updateFirstByUsername_append l1 l2 k _ un n2 hl1 hun
  refine ⟨h2, by rw [h2], ?_, ?_, l1, k, l2, heq, ?_⟩
  · rw [h2, hls]
    exact h
  · rw [husers2, heq]
    simp
  · rw [husers2, h2]

/-- Instantiation of the idempotent-join theorem: joining twice as `alice`
returns the same id both times. -/
theorem addUser_twice_idempotent_witness :
    (addUser (addUser initStore "alice" 5 "idA" ⟨2, by decide⟩).2 "alice" 9 "idB"
        ⟨4, by decide⟩).1.id
      = (addUser initStore "alice" 5 "idA" ⟨2, by decide⟩).1.id :=
  (addUser_twice_idempotent initStore "alice" 5 9 "idA" "idB" ⟨2, by decide⟩
      ⟨4, by decide⟩ (by decide)).2.1

/-- `Map.get` on an entry of a map with pairwise-distinct keys returns that
entry's value. -/
theorem mapGet_of_mem_of_nodup (m : List (String × User)) (e : String × User)
    (hm : e ∈ m) (hnd : (m.map Prod.fst).Nodup) : mapGet m e.1 = some e.2 := by
  induction m with
  | nil => cases hm
  | cons a t ih =>
    rcases List.mem_cons.1 hm with rfl | he'
    · simp [mapGet]
    · have hnd' : (t.map Prod.fst).Nodup := (List.nodup_cons.1 hnd).2
      have hka : a.1 ∉ t.map Prod.fst := (List.nodup_cons.1 hnd).1
      have hne : ¬ (a.1 = e.1) := by
        intro hcontra
        exact hka (hcontra ▸ List.mem_map_of_mem Prod.fst he')
      have ihr := ih he' hnd'
      simpa [mapGet, hne] using ihr

/-- C3: `getOnlineUsers()` at time `now` keeps exactly the map entries whose
`lastSeen` is within the 30-second window — those survive verbatim, in
order — returns exactly the survivors' records, leaves the message log
alone, and permanently deletes every stale user: a subsequent `getUser` on a
swept user's id finds nothing. -/
theorem getOnlineUsers_sweep (s : ChatStore) (now : Nat)
    (hnd : (s.users.map Prod.fst).Nodup) :
    (getOnlineUsers s now).2.users
      = s.users.filter (fun e => now - e.2.lastSeen ≤ presenceTimeout) ∧
    (getOnlineUsers s now).1 = mapValues (getOnlineUsers s now).2.users ∧
    (getOnlineUsers s now).2.messages = s.messages ∧
    (∀ e ∈ s.users, now - e.2.lastSeen ≤ presenceTimeout
        → e ∈ (getOnlineUsers s now).2.users) ∧
    (∀ e ∈ s.users, presenceTimeout < now - e.2.lastSeen
        → getUser (getOnlineUsers s now).2 e.1 = none) := by
  have hfilter : (getOnlineUsers s now).2.users
      = s.users.filter (fun e => now - e.2.lastSeen ≤ presenceTimeout) := by
    refine List.filter_congr ?_
    intro e _
    rw [decide_eq_decide]
    omega
  refine ⟨hfilter, rfl, rfl, ?_, ?_⟩
  · intro e he hfresh
    rw [hfilter]
    refine List.mem_filter.2 ⟨he, ?_⟩
    simpa using hfresh
  · intro e he hstale
    show mapGet (getOnlineUsers s now).2.users e.1 = none
    rw [hfilter, mapGet]
    have hnone : (s.users.filter
        (fun e => now - e.2.lastSeen ≤ presenceTimeout)).find?
          (fun x => x.1 = e.1) = none := by
      rw [List.find?_eq_none]
      intro x hx
      have hxmem := (List.mem_filter.1 hx).1
      have hxfresh : now - x.2.lastSeen ≤ presenceTimeout := by
        simpa using (List.mem_filter.1 hx).2
      intro hkey
      have hxe : x = e := by
        have hk : x.1 = e.1 := by simpa using hkey
        exact List.inj_on_of_nodup_map hnd hxmem he hk
      rw [hxe] at hxfresh
      omega
    rw [hnone]
    rfl

/-- Instantiation of the sweep theorem: with one user last seen at time 0
and the clock at 100000 ms, the user is deleted and a later lookup of its id
finds nothing. -/
theorem getOnlineUsers_sweep_witness :
    getUser (getOnlineUsers
        { users := [("a1", { id := "a1", username := "alice", color := "#e74c3c",
                             lastSeen := 0 })],
          messages := [] } 100000).2 "a1" = none :=
  (getOnlineUsers_sweep
      { users := [("a1", { id := "a1", username := "alice", color := "#e74c3c",
                           lastSeen := 0 })],
        messages := [] } 100000 (by decide)).2.2.2.2
    ("a1", { id := "a1", username := "alice", color := "#e74c3c", lastSeen := 0 })
    (by decide) (by decide)

/-- The store-mutating operations, with each call's nondeterministic inputs
(`Date.now()`, `generateId()`, the random color index) made explicit.
`getUser` and `getMessages` mutate nothing and are omitted. -/
inductive Op where
  | addUser (username : String) (now : Nat) (freshId : String)
      (colorIdx : Fin colors.length)
  | removeUser (userId : String)
  | getOnlineUsers (now : Nat)
  | updateUserSeen (userId : String) (now : Nat)
  | addMessage (username content color : String) (type : MsgType) (now : Nat)
      (freshId : String)
  | addSystemMessage (content : String) (now : Nat) (freshId : String)
  | getStats (now : Nat)

/-- The store mutation performed by one operation. -/
def Op.apply (s : ChatStore) : Op → ChatStore
  | .addUser un now i c => (LocalChat.addUser s un now i c).2
  | .removeUser uid => LocalChat.removeUser s uid
  | .getOnlineUsers now => (LocalChat.getOnlineUsers s now).2
  | .updateUserSeen uid now => LocalChat.updateUserSeen s uid now
  | .addMessage un co col t now i => (LocalChat.addMessage s un co col t now i).2
  | .addSystemMessage co now i => (LocalChat.addSystemMessage s co now i).2
  | .getStats now => (LocalChat.getStats s now).2

/-- A store state reachable from the fresh store by some operation trace. -/
def Reachable (s : ChatStore) : Prop :=
  ∃ ops : List Op, s = ops.foldl Op.apply initStore

/-- The user-map invariant: every entry is keyed by its record's id, every
record's color comes from the palette, and keys are pairwise distinct. -/
def UsersInv (s : ChatStore) : Prop :=
  (∀ e ∈ s.users, e.2.id = e.1 ∧ e.2.color ∈ colors) ∧
  (s.users.map Prod.fst).Nodup

/-- `Map.set` either leaves the key list unchanged (replacement) or appends
the new key (insertion). -/
theorem mapSet_keys (m : List (String × User)) (k : String) (v : User) :
    (mapSet m k v).map Prod.fst
      = if k ∈ m.map Prod.fst then m.map Prod.fst else m.map Prod.fst ++ [k] := by
  induction m with
  | nil => simp [mapSet]
  | cons a t ih =>
    obtain ⟨k0, v0⟩ := a
    by_cases hk : k0 = k
    · subst hk
      simp [mapSet]
    · by_cases hmem : k ∈ t.map Prod.fst <;>
        simp [mapSet, hk, ih, hmem, Ne.symm hk]

/-- `Map.set` preserves distinctness of keys. -/
theorem mapSet_nodup_keys (m : List (String × User)) (k : String) (v : User)
    (hnd : (m.map Prod.fst).Nodup) : ((mapSet m k v).map Prod.fst).Nodup := by
  rw [mapSet_keys]
  by_cases hmem : k ∈ m.map Prod.fst
  · rw [if_pos hmem]
    exact hnd
  · rw [if_neg hmem]
    simp [List.nodup_append, hnd, hmem]

/-- Every entry of `Map.set`'s result is the new entry or an old one. -/
theorem mapSet_mem (m : List (String × User)) (k : String) (v : User)
    (e : String × User) (he : e ∈ mapSet m k v) : e = (k, v) ∨ e ∈ m := by
  induction m with
  | nil => simpa [mapSet] using he
  | cons a t ih =>
    obtain ⟨k0, v0⟩ := a
    by_cases hk : k0 = k
    · rw [mapSet, if_pos hk] at he
      rcases List.mem_cons.1 he with rfl | he'
      · exact Or.inl rfl
      · exact Or.inr (List.mem_cons_of_mem _ he')
    · rw [mapSet, if_neg hk] at he
      rcases List.mem_cons.1 he with rfl | he'
      · exact Or.inr (List.mem_cons_self _ _)
      · rcases ih he' with h1 | h2
        · exact Or.inl h1
        · exact Or.inr (List.mem_cons_of_mem _ h2)

/-- The in-place `lastSeen` refresh leaves the key list unchanged. -/
theorem updateFirstByUsername_keys (m : List (String × User)) (un : String)
    (now : Nat) :
    (updateFirstByUsername m un now).map Prod.fst = m.map Prod.fst := by
  induction m with
  | nil => rfl
  | cons a t ih =>
    obtain ⟨k0, v0⟩ := a
    by_cases hv : v0.username = un <;> simp [updateFirstByUsername, hv, ih]

/-- Every entry after the in-place `lastSeen` refresh keeps the key, id,
username and color of an entry of the original map. -/
theorem updateFirstByUsername_mem (m : List (String × User)) (un : String)
    (now : Nat) (e' : String × User) (he : e' ∈ updateFirstByUsername m un now) :
    ∃ e ∈ m, e'.1 = e.1 ∧ e'.2.id = e.2.id ∧ e'.2.username = e.2.username
      ∧ e'.2.color = e.2.color := by
  induction m with
  | nil => simp [updateFirstByUsername] at he
  | cons a t ih =>
    obtain ⟨k0, v0⟩ := a
    by_cases hv : v0.username = un
    · rw [updateFirstByUsername, if_pos hv] at he
      rcases List.mem_cons.1 he with rfl | he'
      · exact ⟨(k0, v0), List.mem_cons_self _ _, rfl, rfl, rfl, rfl⟩
      · exact ⟨e', List.mem_cons_of_mem _ he', rfl, rfl, rfl, rfl⟩
    · rw [updateFirstByUsername, if_neg hv] at he
      rcases List.mem_cons.1 he with rfl | he'
      · exact ⟨(k0, v0), List.mem_cons_self _ _, rfl, rfl, rfl, rfl⟩
      · obtain ⟨e, hem, hk, hid, hun, hcol⟩ := ih he'
        exact ⟨e, List.mem_cons_of_mem _ hem, hk, hid, hun, hcol⟩

/-- A successful `Map.get` exhibits the entry in the map. -/
theorem mapGet_some_mem (m : List (String × User)) (k : String) (u : User)
    (h : mapGet m k = some u) : (k, u) ∈ m := by
  unfold mapGet at h
  cases hf : m.find? (fun e => e.1 = k) with
  | none =>
    rw [hf] at h
    cases h
  | some e0 =>
    rw [hf] at h
    obtain ⟨k0, v0⟩ := e0
    have hval : v0 = u := Option.some.inj h
    have hkey : k0 = k := by simpa using List.find?_some hf
    have hmem := List.mem_of_find?_eq_some hf
    rw [← hkey, ← hval]
    exact hmem

/-- Every user entry present after any operation either keeps the key, id,
username and color of an entry of the previous state, or is the fresh user
created by an `addUser` insertion. -/
theorem apply_users_origin (s : ChatStore) (op : Op) (e' : String × User)
    (he' : e' ∈ (Op.apply s op).users) :
    (∃ e ∈ s.users, e'.1 = e.1 ∧ e'.2.id = e.2.id ∧ e'.2.username = e.2.username
        ∧ e'.2.color = e.2.color)
    ∨ (∃ (un : String) (now : Nat) (i : String) (c : Fin colors.length),
        op = Op.addUser un now i c ∧
        e' = (i, { id := i, username := un, color := getRandomColor c,
                   lastSeen := now })) := by
  cases op with
  | addUser un now i c =>
    cases hfind : (mapValues s.users).find? (fun v => v.username = un) with
    | some u =>
      have hcomp := addUser_of_find_some s un now i c u hfind
      have he2 : e' ∈ updateFirstByUsername s.users un now := by
        have : (Op.apply s (Op.addUser un now i c)).users
            = updateFirstByUsername s.users un now := by
          show (addUser s un now i c).2.users = _
          rw [hcomp]
        rwa [this] at he'
      exact Or.inl (updateFirstByUsername_mem s.users un now e' he2)
    | none =>
      have hcomp := addUser_of_find_none s un now i c hfind
      have he2 : e' ∈ mapSet s.users i
          { id := i, username := un, color := getRandomColor c, lastSeen := now } := by
        have : (Op.apply s (Op.addUser un now i c)).users
            = mapSet s.users i
                { id := i, username := un, color := getRandomColor c,
                  lastSeen := now } := by
          show (addUser s un now i c).2.users = _
          rw [hcomp]
        rwa [this] at he'
      rcases mapSet_mem _ _ _ _ he2 with rfl | hmem
      · exact Or.inr ⟨un, now, i, c, rfl, rfl⟩
      · exact Or.inl ⟨e', hmem, rfl, rfl, rfl, rfl⟩
  | removeUser uid =>
    have hmem : e' ∈ s.users := List.mem_of_mem_filter he'
    exact Or.inl ⟨e', hmem, rfl, rfl, rfl, rfl⟩
  | getOnlineUsers now =>
    have hmem : e' ∈ s.users := List.mem_of_mem_filter he'
    exact Or.inl ⟨e', hmem, rfl, rfl, rfl, rfl⟩
  | updateUserSeen uid now =>
    cases hget : mapGet s.users uid with
    | none =>
      have : (Op.apply s (Op.updateUserSeen uid now)).users = s.users := by
        show (updateUserSeen s uid now).users = _
        rw [updateUserSeen, hget]
      rw [this] at he'
      exact Or.inl ⟨e', he', rfl, rfl, rfl, rfl⟩
    | some u =>
      have hmem0 : (uid, u) ∈ s.users := mapGet_some_mem s.users uid u hget
      have : (Op.apply s (Op.updateUserSeen uid now)).users
          = mapSet s.users uid { u with lastSeen := now } := by
        show (updateUserSeen s uid now).users = _
        rw [updateUserSeen, hget]
      rw [this] at he'
      rcases mapSet_mem _ _ _ _ he' with rfl | hmem
      · exact Or.inl ⟨(uid, u), hmem0, rfl, rfl, rfl, rfl⟩
      · exact Or.inl ⟨e', hmem, rfl, rfl, rfl, rfl⟩
  | addMessage un co col t now i =>
    exact Or.inl ⟨e', he', rfl, rfl, rfl, rfl⟩
  | addSystemMessage co now i =>
    exact Or.inl ⟨e', he', rfl, rfl, rfl, rfl⟩
  | getStats now =>
    have hmem : e' ∈ s.users := List.mem_of_mem_filter he'
    exact Or.inl ⟨e', hmem, rfl, rfl, rfl, rfl⟩

/-- Every operation preserves distinctness of the user-map keys. -/
theorem apply_users_keys_nodup (s : ChatStore) (op : Op)
    (hnd : (s.users.map Prod.fst).Nodup) :
    (((Op.apply s op).users).map Prod.fst).Nodup := by
  cases op with
  | addUser un now i c =>
    cases hfind : (mapValues s.users).find? (fun v => v.username = un) with
    | some u =>
      have hcomp := addUser_of_find_some s un now i c u hfind
      have : (Op.apply s (Op.addUser un now i c)).users
          = updateFirstByUsername s.users un now := by
        show (addUser s un now i c).2.users = _
        rw [hcomp]
      rw [this, updateFirstByUsername_keys]
      exact hnd
    | none =>
      have hcomp := addUser_of_find_none s un now i c hfind
      have : (Op.apply s (Op.addUser un now i c)).users
          = mapSet s.users i
              { id := i, username := un, color := getRandomColor c,
                lastSeen := now } := by
        show (addUser s un now i c).2.users = _
        rw [hcomp]
      rw [this]
      exact mapSet_nodup_keys _ _ _ hnd
  | removeUser uid =>
    exact List.Nodup.sublist (List.Sublist.map _ (List.filter_sublist _)) hnd
  | getOnlineUsers now =>
    exact List.Nodup.sublist (List.Sublist.map _ (List.filter_sublist _)) hnd
  | updateUserSeen uid now =>
    cases hget : mapGet s.users uid with
    | none =>
      have : (Op.apply s (Op.updateUserSeen uid now)).users = s.users := by
        show (updateUserSeen s uid now).users = _
        rw [updateUserSeen, hget]
      rw [this]
      exact hnd
    | some u =>
      have : (Op.apply s (Op.updateUserSeen uid now)).users
          = mapSet s.users uid { u with lastSeen := now } := by
        show (updateUserSeen s uid now).users = _
        rw [updateUserSeen, hget]
      rw [this]
      exact mapSet_nodup_keys _ _ _ hnd
  | addMessage un co col t now i => exact hnd
  | addSystemMessage co now i => exact hnd
  | getStats now =>
    exact List.Nodup.sublist (List.Sublist.map _ (List.filter_sublist _)) hnd

/-- Every operation preserves the user-map invariant. -/
theorem usersInv_step (s : ChatStore) (op : Op) (h : UsersInv s) :
    UsersInv (Op.apply s op) := by
  obtain ⟨hall, hnd⟩ := h
  refine ⟨?_, apply_users_keys_nodup s op hnd⟩
  intro e' he'
  rcases apply_users_origin s op e' he' with ⟨e, hem, hk, hid, _, hcol⟩ | hfresh
  · obtain ⟨hid0, hcol0⟩ := hall e hem
    constructor
    · rw [hid, hid0, hk]
    · rw [hcol]
      exact hcol0
  · obtain ⟨un, now, i, c, _, rfl⟩ := hfresh
    exact ⟨rfl, List.get_mem colors c.1 c.2⟩

/-- Every reachable store state satisfies the user-map invariant. -/
theorem usersInv_reachable (s : ChatStore) (h : Reachable s) : UsersInv s := by
  obtain ⟨ops, rfl⟩ := h
  have h' : ∀ (l : List Op) (t : ChatStore), UsersInv t → UsersInv (l.foldl Op.apply t) := by
    intro l
    induction l with
    | nil => intro t ht; exact ht
    | cons op l ih =>
      intro t ht
      exact ih _ (usersInv_step t op ht)
  exact h' ops initStore ⟨fun e he => absurd he (List.not_mem_nil e), List.nodup_nil⟩

/-- C8: in every reachable store state, every user record's color belongs to
the fixed 8-entry palette, and no operation changes the color (or id or
username) of a surviving record: after any operation, each user entry either
keeps the key, id, username and color of an entry of the previous state or
is a freshly created user whose color comes from the palette. -/
theorem user_colors_palette (s : ChatStore) (h : Reachable s) :
    (∀ e ∈ s.users, e.2.color ∈ colors) ∧
    (∀ op : Op, ∀ e' ∈ (Op.apply s op).users,
      (∃ e ∈ s.users, e'.1 = e.1 ∧ e'.2.id = e.2.id ∧ e'.2.username = e.2.username
          ∧ e'.2.color = e.2.color)
      ∨ e'.2.color ∈ colors) := by
  have hinv := usersInv_reachable s h
  refine ⟨fun e he => (hinv.1 e he).2, ?_⟩
  intro op e' he'
  rcases apply_users_origin s op e' he' with hleft | hfresh
  · exact Or.inl hleft
  · obtain ⟨un, now, i, c, _, rfl⟩ := hfresh
    exact Or.inr (List.get_mem colors c.1 c.2)

/-- Instantiation of the palette theorem: the user created by joining as
`alice` with random index 2 has the palette color `#2ecc71`. -/
theorem user_colors_palette_witness :
    ({ id := "id1", username := "alice", color := "#2ecc71", lastSeen := 5 } : User).color
      ∈ colors :=
  (user_colors_palette
      (Op.apply initStore (Op.addUser "alice" 5 "id1" ⟨2, by decide⟩))
      ⟨[Op.addUser "alice" 5 "id1" ⟨2, by decide⟩], rfl⟩).1
    ("id1", { id := "id1", username := "alice", color := "#2ecc71", lastSeen := 5 })
    (by decide)

/-- C10: in every reachable store state the user map is keyed by user id
(`e.2.id = e.1` for every entry), this is preserved by every operation, and
consequently the user returned by `addUser`, and each user returned by
`getOnlineUsers`, is found again by an immediately following `getUser` on
its id. -/
theorem users_keyed_by_id (s : ChatStore) (h : Reachable s) :
    (∀ e ∈ s.users, e.2.id = e.1) ∧
    (∀ op : Op, ∀ e ∈ (Op.apply s op).users, e.2.id = e.1) ∧
    (∀ (un : String) (now : Nat) (i : String) (c : Fin colors.length),
      getUser (addUser s un now i c).2 (addUser s un now i c).1.id
        = some (addUser s un now i c).1) ∧
    (∀ now : Nat, ∀ u ∈ (getOnlineUsers s now).1,
      getUser (getOnlineUsers s now).2 u.id = some u) := by
  have hinv := usersInv_reachable s h
  refine ⟨fun e he => (hinv.1 e he).1, ?_, ?_, ?_⟩
  · intro op e he
    exact ((usersInv_step s op ⟨hinv.1, hinv.2⟩).1 e he).1
  · intro un now i c
    have hinv' : UsersInv (addUser s un now i c).2 :=
      usersInv_step s (Op.addUser un now i c) hinv
    obtain ⟨hun, hls, l1, k, l2, heq, hl1⟩ := addUser_decomp s un now i c
    have hmem : (k, (addUser s un now i c).1) ∈ (addUser s un now i c).2.users := by
      rw [heq]
      exact List.mem_append_right _ (List.mem_cons_self _ _)
    have hkey : (addUser s un now i c).1.id = k := (hinv'.1 _ hmem).1
    show mapGet (addUser s un now i c).2.users (addUser s un now i c).1.id = some _
    rw [hkey]
    exact mapGet_of_mem_of_nodup _ (k, (addUser s un now i c).1) hmem hinv'.2
  · intro now u hu
    have hinv' : UsersInv (getOnlineUsers s now).2 :=
      usersInv_step s (Op.getOnlineUsers now) hinv
    obtain ⟨e, hem, hval⟩ := List.mem_map.1 hu
    have hkey : u.id = e.1 := by
      rw [← hval]
      exact (hinv'.1 e hem).1
    show mapGet (getOnlineUsers s now).2.users u.id = some u
    rw [hkey, ← hval]
    have := mapGet_of_mem_of_nodup _ e hem hinv'.2
    exact this

/-- Instantiation of the keyed-by-id theorem: a freshly created user is
found again by `getUser` on its id. -/
theorem users_keyed_by_id_witness :
    getUser (addUser initStore "alice" 5 "id1" ⟨2, by decide⟩).2
        (addUser initStore "alice" 5 "id1" ⟨2, by decide⟩).1.id
      = some (addUser initStore "alice" 5 "id1" ⟨2, by decide⟩).1 :=
  (users_keyed_by_id initStore ⟨[], rfl⟩).2.2.1 "alice" 5 "id1" ⟨2, by decide⟩

/-- Concrete messages used to instantiate the poll-delta theorem on the
spec's own example log `[m1, m2, m3]`. -/
def pollMsg1 : Message :=
  { id := "id1", username := "alice", content := "one", timestamp := 1,
    type := MsgType.user, color := "#e74c3c" }

def pollMsg2 : Message :=
  { id := "id2", username := "bob", content := "two", timestamp := 2,
    type := MsgType.user, color := "#3498db" }

def pollMsg3 : Message :=
  { id := "id3", username := "alice", content := "three", timestamp := 3,
    type := MsgType.user, color := "#e74c3c" }

/-- `findIdx?` on a list that splits as `l1 ++ m :: l2` with no match in `l1`
and a match at `m` returns the position of `m`. -/
theorem findIdx?_first_match {α : Type _} (p : α → Bool) (l1 l2 : List α) (m : α)
    (h1 : ∀ x ∈ l1, p x = false) (hm : p m = true) :
    (l1 ++ m :: l2).findIdx? p = some l1.length := by
  induction l1 with
  | nil => simp [hm]
  | cons a l ih =>
    have ha : p a = false := h1 a (List.mem_cons_self a l)
    have ih' := ih (fun x hx => h1 x (List.mem_cons_of_mem a hx))
    simp [List.findIdx?_cons, ha, List.findIdx?_succ, ih']

/-- C5: `getStats()` returns `totalMessages` equal to `getMessages().length`,
`userMessages` equal to the number of log entries with `type = 'user'`, and
`onlineUsers` equal to the length of the list produced by the
expiry-sweeping `getOnlineUsers()` call at the same time. -/
theorem getStats_derived (s : ChatStore) (now : Nat) :
    (getStats s now).1.totalMessages = (getMessages s).length ∧
    (getStats s now).1.userMessages
      = ((getMessages s).filter (fun m => m.type = MsgType.user)).length ∧
    (getStats s now).1.onlineUsers = (getOnlineUsers s now).1.length :=
  ⟨rfl, rfl, rfl⟩

/-- C9: `addSystemMessage(content)` is exactly
`addMessage('System', content, '#666666', 'system')`: the same returned
message (author `System`, type `system`, neutral color `#666666`) and the
same store mutation. -/
theorem addSystemMessage_wrapper (s : ChatStore) (content : String) (now : Nat)
    (freshId : String) :
    addSystemMessage s content now freshId
      = addMessage s "System" content "#666666" MsgType.system now freshId ∧
    (addSystemMessage s content now freshId).1.username = "System" ∧
    (addSystemMessage s content now freshId).1.type = MsgType.system ∧
    (addSystemMessage s content now freshId).1.color = "#666666" :=
  ⟨rfl, rfl, rfl, rfl⟩

/-- C7: `removeUser(userId)` leaves the message log alone, removes exactly
the entries keyed by this id (all other user records are kept verbatim), is
idempotent (a second call changes nothing), and is a no-op when the id is
absent. -/
theorem removeUser_idempotent_noop (s : ChatStore) (uid : String) :
    (removeUser s uid).messages = s.messages ∧
    (removeUser s uid).users = s.users.filter (fun e => e.1 ≠ uid) ∧
    removeUser (removeUser s uid) uid = removeUser s uid ∧
    (getUser s uid = none → removeUser s uid = s) := by
  refine ⟨rfl, rfl, ?_, ?_⟩
  · simp [removeUser, mapDelete, List.filter_filter]
  · intro h
    have hf : s.users.find? (fun e => e.1 = uid) = none := by
      simpa [getUser, mapGet] using h
    have hall := List.find?_eq_none.1 hf
    cases s with
    | mk users messages =>
      simp only [removeUser, mapDelete]
      congr 1
      refine List.filter_eq_self.2 ?_
      intro e he
      simpa using hall e he

/-- Instantiation of the `removeUser` theorem: removing an absent id from the
fresh store leaves it unchanged. -/
theorem removeUser_idempotent_noop_witness :
    removeUser initStore "u1" = initStore :=
  (removeUser_idempotent_noop initStore "u1").2.2.2 rfl

/-- C4 fails as stated: with a log containing one message whose id is the
empty string and the cursor equal to that id, the claim demands the delta
`[]` (everything strictly after position 0), but the handler's truthiness
test `if (lastMessageId)` treats the empty-string cursor as absent and
returns the full log. -/
theorem pollDelta_empty_cursor_cex :
    pollDelta
      [{ id := "", username := "a", content := "hi", timestamp := 0,
         type := MsgType.user, color := "#e74c3c" }] (some "") ≠ [] := by
  decide

/-- C4 (amended): an absent cursor, an empty-string cursor, or a cursor
matching no message id yields the full log; a non-empty cursor equal to the
id of a message, with no earlier occurrence of that id, yields exactly the
messages strictly after that message. -/
theorem pollDelta_delta (msgs l1 l2 : List Message) (m : Message) (lid : String) :
    pollDelta msgs none = msgs ∧
    pollDelta msgs (some "") = msgs ∧
    ((∀ m' ∈ msgs, m'.id ≠ lid) → pollDelta msgs (some lid) = msgs) ∧
    (lid ≠ "" → msgs = l1 ++ m :: l2 → m.id = lid → (∀ m' ∈ l1, m'.id ≠ lid) →
      pollDelta msgs (some lid) = l2) := by
  refine ⟨rfl, by simp [pollDelta], ?_, ?_⟩
  · intro h
    by_cases h0 : lid = ""
    · simp [pollDelta, h0]
    · have hf : msgs.findIdx? (fun m' => m'.id = lid) = none := by
        rw [List.findIdx?_eq_none_iff]
        intro x hx
        simpa using h x hx
      simp [pollDelta, h0, hf]
  · intro h0 hmsgs hmid hl1
    have hf : msgs.findIdx? (fun m' => m'.id = lid) = some l1.length := by
      subst hmsgs
      refine findIdx?_first_match _ l1 l2 m ?_ (by simpa using hmid)
      intro x hx
      simpa using hl1 x hx
    have hdrop : msgs.drop (l1.length + 1) = l2 := by
      subst hmsgs
      have he : l1 ++ m :: l2 = (l1 ++ [m]) ++ l2 := by simp
      have hl : l1.length + 1 = (l1 ++ [m]).length := by simp
      rw [he, hl, List.drop_left]
    simp [pollDelta, h0, hf, hdrop]

/-- Instantiation of the amended poll-delta theorem on the spec's example:
log `[m1, m2, m3]` with cursor `m1.id` yields `[m2, m3]`. -/
theorem pollDelta_delta_witness :
    pollDelta [pollMsg1, pollMsg2, pollMsg3] (some "id1") = [pollMsg2, pollMsg3] :=
  (pollDelta_delta [pollMsg1, pollMsg2, pollMsg3] [] [pollMsg2, pollMsg3]
      pollMsg1 "id1").2.2.2 (by decide) rfl rfl (by intro m' h; cases h)

end LocalChat
